import Mathlib

/-!
Verification of the retention-policy directory reaper implemented in the
xcode cleanup commands of this repository.  The repository contains two
near-duplicate implementations:

* `src/commands/xcode.py` — helper functions `_get_archives`,
  `_get_archives_to_remove`, `_calculate_total_size`, `_remove_archives`,
  `_group_device_support_by_version`, `_get_directories_to_remove`,
  `_remove_device_support_directories`, and the drivers `cleanup_archives`
  and `cleanup_device_support`;
* `macos_tools/commands/xcode.py` — the same logic inlined into
  `cleanup_archives` and `cleanup_device_support`.

The definitions below are a shallow embedding of those functions.
Filesystem reads are modelled by oracles: `σ : String → Option Nat` is the
result of `get_dir_size(path)` (`none` models the call raising, which the
callers guard against with `try/except`), and `δ : String → Bool` tells
whether `shutil.rmtree(path)` raises (`true` = raises).  Modification
times are modelled as `Nat` (the code only compares them).  Error strings
are modelled by the path they embed.
-/

/-- Python's `s.split(sep)[0]` for a one-character separator `sep`: the
substring of `s` before the first occurrence of `c` (the whole string when
`c` does not occur). -/
def beforeFirst (c : Char) (s : String) : String :=
  ⟨s.data.takeWhile (fun x => x != c)⟩

/-- One archive entry as built by `_get_archives` in `src/commands/xcode.py`:
`path` is the joined path, `mtime` its modification time, and `name` is
`os.path.basename(path).split(".")[0]`, i.e. the basename cut at the first
dot. -/
structure Archive where
  path : String
  mtime : Nat
  name : String
deriving DecidableEq, Repr

/-- Build an `Archive` from a directory and a file name, mirroring the
dictionary built in `_get_archives`: the basename of the joined path is the
file name itself, so `name` is the file name cut at its first dot. -/
def mk_archive_entry (root file : String) (t : Nat) : Archive :=
  { path := root ++ "/" ++ file, mtime := t, name := beforeFirst '.' file }

/-- One device-support entry as built by `_get_device_support_directories` in
`src/commands/xcode.py`: directory name, joined path, modification time and
the directory size computed once at listing time. -/
structure DeviceDir where
  name : String
  path : String
  mtime : Nat
  size : Nat
deriving DecidableEq, Repr

/-- Stable insertion step for a descending sort: `a` is placed before the
first element `b` with `le b a` (so on ties the earlier-listed element stays
first, matching Python's stable `sort(..., reverse=True)` / `sorted(...,
reverse=True)`). -/
def insDescBy (le : α → α → Bool) (a : α) : List α → List α
  | [] => [a]
  | b :: bs => if le b a then a :: b :: bs else b :: insDescBy le a bs

/-- Stable descending sort, modelling Python's stable sort with
`reverse=True`. -/
def sortDescBy (le : α → α → Bool) : List α → List α
  | [] => []
  | x :: xs => insDescBy le x (sortDescBy le xs)

/-- Comparison by modification time, the key used by
`archives.sort(key=lambda x: x["mtime"], reverse=True)` and
`sorted(dirs, key=lambda x: x["mtime"], reverse=True)`. -/
def mtimeLeA (x y : Archive) : Bool := decide (x.mtime ≤ y.mtime)

/-- Comparison by modification time for device-support entries. -/
def mtimeLeD (x y : DeviceDir) : Bool := decide (x.mtime ≤ y.mtime)

/-- The group key `_get_archives_to_remove` computes for an archive:
`archive["name"].split(" ")[0]`. -/
def archive_group_key (a : Archive) : String := beforeFirst ' ' a.name

/-- The grouping loop of `_get_archives_to_remove`: walking the
mtime-descending list, the first archive of each project key is kept (stored
in the `latest_archives` dict) and every later one is appended to
`to_remove`. -/
def archRemoveLoop (seen : List String) : List Archive → List Archive
  | [] => []
  | a :: rest =>
    if seen.contains (archive_group_key a) then a :: archRemoveLoop seen rest
    else archRemoveLoop (archive_group_key a :: seen) rest

/-- `_get_archives_to_remove(archives, keep_latest)` from
`src/commands/xcode.py`.  The function sorts its argument **in place**
(`archives.sort(...)`), so the embedding returns the post-call state of the
input list as the first component and the returned `to_remove` list as the
second. -/
def get_archives_to_remove (archives : List Archive) (keep_latest : Bool) :
    List Archive × List Archive :=
  if keep_latest = false then (archives, archives)
  else
    let sorted := sortDescBy mtimeLeA archives
    (sorted, archRemoveLoop [] sorted)

/-- `_calculate_total_size(archives)` from `src/commands/xcode.py`: sums
`get_dir_size(archive["path"])` over the archives, turning a raised
exception (`σ path = none`) into a zero contribution via its
`try/except (OSError, PermissionError): pass`. -/
def calculate_total_size (σ : String → Option Nat) (archives : List Archive) : Nat :=
  archives.foldl (fun total a => total + (σ a.path).getD 0) 0

/-- `_remove_archives(archives)` from `src/commands/xcode.py`: for each
archive, re-read its size and `shutil.rmtree` it inside one `try`; on
success increment the count and add the size, on any exception append an
error naming the path and continue.  Returns
`(removed_count, removed_size, errors)`. -/
def remove_archives (σ : String → Option Nat) (δ : String → Bool) :
    List Archive → Nat × Nat × List String
  | [] => (0, 0, [])
  | a :: rest =>
    match σ a.path with
    | none =>
      let r := remove_archives σ δ rest
      (r.1, r.2.1, a.path :: r.2.2)
    | some sz =>
      if δ a.path then
        let r := remove_archives σ δ rest
        (r.1, r.2.1, a.path :: r.2.2)
      else
        let r := remove_archives σ δ rest
        (r.1 + 1, r.2.1 + sz, r.2.2)

/-- Whether the `try` block of `_remove_archives` succeeds for an archive:
the size read must return and the recursive deletion must not raise. -/
def removeOk (σ : String → Option Nat) (δ : String → Bool) (a : Archive) : Bool :=
  match σ a.path with
  | none => false
  | some _ => !δ a.path

/-- Insertion into the Python-dict-shaped association list used by the
grouping code: append to the existing key's list, or append a fresh
singleton group at the end (dict insertion order). -/
def addGroup : List (String × List α) → String → α → List (String × List α)
  | [], k, d => [(k, [d])]
  | (k', l) :: rest, k, d =>
    if k' = k then (k', l ++ [d]) :: rest else (k', l) :: addGroup rest k d

/-- `_group_device_support_by_version(device_dirs)` from
`src/commands/xcode.py`: groups entries by `device_dir["name"].split(" ")[0]`
in a dict, preserving encounter order inside each group. -/
def group_device_support_by_version (device_dirs : List DeviceDir) :
    List (String × List DeviceDir) :=
  device_dirs.foldl (fun gs d => addGroup gs (beforeFirst ' ' d.name) d) []

/-- The `sum(d["size"] for d in ...)` expression of
`_get_directories_to_remove`. -/
def sumSizes (l : List DeviceDir) : Nat := l.foldl (fun t d => t + d.size) 0

/-- `_get_directories_to_remove(device_dirs, keep_latest)` from
`src/commands/xcode.py`, extended with the `to_keep` list the source also
builds: empty input yields nothing; without `keep_latest` everything is
removed; with it each version group is sorted newest-first (stably) and the
head is kept, the tail removed.  Returns `(to_keep, to_remove, total_size)`. -/
def get_directories_to_remove_full (device_dirs : List DeviceDir) (keep_latest : Bool) :
    List DeviceDir × List DeviceDir × Nat :=
  if device_dirs.isEmpty then ([], [], 0)
  else if keep_latest = false then ([], device_dirs, sumSizes device_dirs)
  else
    let gs := (group_device_support_by_version device_dirs).map
      (fun kg => sortDescBy mtimeLeD kg.2)
    (gs.filterMap List.head?, (gs.map List.tail).flatten, sumSizes ((gs.map List.tail).flatten))

/-- The pair `(to_remove, total_size)` actually returned by
`_get_directories_to_remove`. -/
def get_directories_to_remove (device_dirs : List DeviceDir) (keep_latest : Bool) :
    List DeviceDir × Nat :=
  ((get_directories_to_remove_full device_dirs keep_latest).2.1,
   (get_directories_to_remove_full device_dirs keep_latest).2.2)

/-- `_remove_device_support_directories(to_remove)` from
`src/commands/xcode.py`: for each entry, if its path still exists attempt
`shutil.rmtree`; on success add the cached size, on exception append an
error naming the path; a vanished path is skipped silently.  `ex` is the
`os.path.exists` oracle. -/
def remove_device_support_directories (ex : String → Bool) (δ : String → Bool) :
    List DeviceDir → Nat × Nat × List String
  | [] => (0, 0, [])
  | d :: rest =>
    if ex d.path then
      if δ d.path then
        let r := remove_device_support_directories ex δ rest
        (r.1, r.2.1, d.path :: r.2.2)
      else
        let r := remove_device_support_directories ex δ rest
        (r.1 + 1, r.2.1 + d.size, r.2.2)
    else remove_device_support_directories ex δ rest

/-- The dry-run/real-run split of `cleanup_archives` in
`src/commands/xcode.py` after listing: compute `to_remove` and its total
size; a dry run only reports `(count, bytes, no errors)` and deletes
nothing, a real run calls `_remove_archives`.  The second component is the
list of paths actually deleted from disk. -/
def cleanup_archives_sim (σ : String → Option Nat) (δ : String → Bool)
    (dry_run keep_latest : Bool) (archives : List Archive) :
    (Nat × Nat × List String) × List String :=
  let rem := (get_archives_to_remove archives keep_latest).2
  if dry_run then
    ((rem.length, calculate_total_size σ rem, []), [])
  else
    (remove_archives σ δ rem, (rem.filter (removeOk σ δ)).map (fun a => a.path))

/-- The choice `KeepNewestPerGroup` actually makes on one group, expressed
directly: the first-listed entry among those with maximal key.  Ties go to
the earlier-listed entry. -/
def keepChoice (key : α → Nat) : List α → Option α
  | [] => none
  | x :: xs =>
    match keepChoice key xs with
    | none => some x
    | some b => if key x < key b then some b else some x

/-- Model of `re.match(r'^(\d+\.\d+(?:\.\d+)?)', s)` as used by
`cleanup_device_support` in `macos_tools/commands/xcode.py`: the leading
`major.minor[.patch]` version prefix of the name, or `none` when the name
does not start with one.  (`\d` is modelled by ASCII `Char.isDigit`.) -/
def versionMatch (s : String) : Option String :=
  let l := s.data
  let d1 := l.takeWhile Char.isDigit
  if d1.isEmpty then none
  else
    match l.dropWhile Char.isDigit with
    | '.' :: r2 =>
      let d2 := r2.takeWhile Char.isDigit
      if d2.isEmpty then none
      else
        match r2.dropWhile Char.isDigit with
        | '.' :: r4 =>
          let d3 := r4.takeWhile Char.isDigit
          if d3.isEmpty then some ⟨d1 ++ '.' :: d2⟩
          else some ⟨d1 ++ '.' :: d2 ++ '.' :: d3⟩
        | _ => some ⟨d1 ++ '.' :: d2⟩
    | _ => none

/-- Lexicographic comparison of character lists by code point, modelling
Python's string `<=`. -/
def charsLe : List Char → List Char → Bool
  | [], _ => true
  | _ :: _, [] => false
  | a :: as, b :: bs => if a < b then true else if b < a then false else charsLe as bs

/-- Python string comparison, used by `sorted(dirs, reverse=True)` on
directory names in `macos_tools/commands/xcode.py`. -/
def strLe (a b : String) : Bool := charsLe a.data b.data

/-- The `ios_versions` dict built by `cleanup_device_support` in
`macos_tools/commands/xcode.py`: names whose leading version prefix matches
are grouped under that version; non-matching names are skipped.  (The
source stores the joined `item_path`; since all share the common parent,
the embedding stores the names themselves.) -/
def ios_versions_of (items : List String) : List (String × List String) :=
  items.foldl (fun gs it =>
    match versionMatch it with
    | some v => addGroup gs v it
    | none => gs) []

/-- The `to_delete` list of the macos_tools `keep-latest` device-support
cleanup: for each version group with more than one member, sort the names
in reverse lexicographic order, keep the first, delete the rest. -/
def macos_device_to_delete (items : List String) : List String :=
  (ios_versions_of items).foldl (fun td kg =>
    if 1 < kg.2.length then td ++ (sortDescBy strLe kg.2).tail else td) []

/-- The `space_would_free` sum of the macos_tools dry runs: per-entry
`get_dir_size` with `except Exception: pass` counting a raised call as
zero. -/
def macos_dry_would_free (σ : String → Option Nat) (paths : List String) : Nat :=
  paths.foldl (fun t p => t + (σ p).getD 0) 0

/-- The macos_tools removal loop (archives and device-support real runs):
per path, read the size and remove recursively inside a `try`; count and
sum on success, record the path on failure. -/
def macos_remove_dirs (σ : String → Option Nat) (δ : String → Bool) :
    List String → Nat × Nat × List String
  | [] => (0, 0, [])
  | p :: rest =>
    match σ p with
    | none =>
      let r := macos_remove_dirs σ δ rest
      (r.1, r.2.1, p :: r.2.2)
    | some sz =>
      if δ p then
        let r := macos_remove_dirs σ δ rest
        (r.1, r.2.1, p :: r.2.2)
      else
        (let r := macos_remove_dirs σ δ rest
         (r.1 + 1, r.2.1 + sz, r.2.2))

/-- Descending sortedness with respect to a Boolean comparison: each
element is `le`-above its successor. -/
def sortedDesc (le : α → α → Bool) (l : List α) : Prop :=
  List.Chain' (fun x y => le y x = true) l

/-- Total number of entries held across a list of groups. -/
def glen (gs : List (String × List α)) : Nat :=
  (gs.map (fun kg => kg.2.length)).sum

example :
    get_directories_to_remove_full
      [⟨"12.4.1 (16G102)", "/ds/a", 2, 10⟩, ⟨"12.4.1 (16G97)", "/ds/b", 1, 20⟩] true
      = ([⟨"12.4.1 (16G102)", "/ds/a", 2, 10⟩], [⟨"12.4.1 (16G97)", "/ds/b", 1, 20⟩], 20) := by
  decide

example : versionMatch "12.4.1 (16G102)" = some "12.4.1" := by decide

example : versionMatch "backup stuff" = none := by decide

example : versionMatch "1.2.x" = some "1.2" := by decide

example : macos_device_to_delete ["12.4.1 (16G102)", "12.4.1 (16G97)"] = ["12.4.1 (16G102)"] := by
  decide

example : archive_group_key (mk_archive_entry "/r" "MyApp.xcarchive" 0) = "MyApp" := by decide

example :
    get_archives_to_remove
      [⟨"/a", 1, "P one"⟩, ⟨"/b", 2, "P two"⟩] true
      = ([⟨"/b", 2, "P two"⟩, ⟨"/a", 1, "P one"⟩], [⟨"/a", 1, "P one"⟩]) := by
  decide

theorem length_insDescBy (le : α → α → Bool) (a : α) (l : List α) :
    (insDescBy le a l).length = l.length + 1 := by
  induction l with
  | nil => rfl
  | cons b bs ih =>
    simp only [insDescBy]
    split
    · simp
    · simp [ih]

theorem perm_insDescBy (le : α → α → Bool) (a : α) (l : List α) :
    (insDescBy le a l).Perm (a :: l) := by
  induction l with
  | nil => exact List.Perm.refl _
  | cons b bs ih =>
    simp only [insDescBy]
    split
    · exact List.Perm.refl _
    · exact (ih.cons b).trans (List.Perm.swap a b bs)

theorem perm_sortDescBy (le : α → α → Bool) (l : List α) :
    (sortDescBy le l).Perm l := by
  induction l with
  | nil => exact List.Perm.refl _
  | cons x xs ih => exact (perm_insDescBy le x _).trans (ih.cons x)

theorem length_sortDescBy (le : α → α → Bool) (l : List α) :
    (sortDescBy le l).length = l.length :=
  (perm_sortDescBy le l).length_eq

theorem mem_sortDescBy (le : α → α → Bool) (l : List α) (x : α) :
    x ∈ sortDescBy le l ↔ x ∈ l :=
  (perm_sortDescBy le l).mem_iff

theorem sortedDesc_insDescBy (le : α → α → Bool)
    (htot : ∀ x y, le x y = false → le y x = true) (a : α) :
    ∀ l : List α, sortedDesc le l → sortedDesc le (insDescBy le a l) := by
  intro l
  induction l with
  | nil => intro _; simp [insDescBy, sortedDesc]
  | cons b bs ih =>
    intro h
    have hbs : sortedDesc le bs := List.Chain'.tail h
    by_cases hba : le b a = true
    · have e : insDescBy le a (b :: bs) = a :: b :: bs := by simp [insDescBy, hba]
      rw [e]
      exact List.chain'_cons.mpr ⟨hba, h⟩
    · have hab : le a b = true :=
        htot _ _ (by simpa using hba)
      have e : insDescBy le a (b :: bs) = b :: insDescBy le a bs := by
        simp [insDescBy, hba]
      rw [e]
      cases bs with
      | nil =>
        simp [insDescBy, sortedDesc, hab]
      | cons c cs =>
        have hchain := ih hbs
        by_cases hca : le c a = true
        · have e2 : insDescBy le a (c :: cs) = a :: c :: cs := by simp [insDescBy, hca]
          rw [e2] at hchain
          rw [e2]
          exact List.chain'_cons.mpr ⟨hab, hchain⟩
        · have e2 : insDescBy le a (c :: cs) = c :: insDescBy le a cs := by
            simp [insDescBy, hca]
          rw [e2] at hchain
          rw [e2]
          have hbc : le c b = true := (List.chain'_cons.mp h).1
          exact List.chain'_cons.mpr ⟨hbc, hchain⟩

theorem sortedDesc_sortDescBy (le : α → α → Bool)
    (htot : ∀ x y, le x y = false → le y x = true) :
    ∀ l : List α, sortedDesc le (sortDescBy le l) := by
  intro l
  induction l with
  | nil => simp [sortDescBy, sortedDesc]
  | cons x xs ih => exact sortedDesc_insDescBy le htot x _ ih

theorem sortDescBy_of_sorted (le : α → α → Bool) :
    ∀ l : List α, sortedDesc le l → sortDescBy le l = l := by
  intro l
  induction l with
  | nil => intro _; rfl
  | cons x xs ih =>
    intro h
    have hxs : sortedDesc le xs := List.Chain'.tail h
    simp only [sortDescBy, ih hxs]
    cases xs with
    | nil => rfl
    | cons b bs =>
      have hxb : le b x = true := (List.chain'_cons.mp h).1
      simp [insDescBy, hxb]

theorem sortDescBy_idem (le : α → α → Bool)
    (htot : ∀ x y, le x y = false → le y x = true) (l : List α) :
    sortDescBy le (sortDescBy le l) = sortDescBy le l :=
  sortDescBy_of_sorted le _ (sortedDesc_sortDescBy le htot l)

theorem keepChoice_eq_none (key : α → Nat) :
    ∀ l : List α, keepChoice key l = none ↔ l = [] := by
  intro l
  cases l with
  | nil => simp [keepChoice]
  | cons x xs =>
    simp only [keepChoice]
    cases keepChoice key xs with
    | none => simp
    | some b =>
      by_cases h : key x < key b <;> simp [h]

theorem head?_sortDescBy (le : α → α → Bool) (key : α → Nat)
    (hc : ∀ x y, le x y = true ↔ key x ≤ key y) :
    ∀ l : List α, (sortDescBy le l).head? = keepChoice key l := by
  intro l
  induction l with
  | nil => rfl
  | cons x xs ih =>
    simp only [sortDescBy, keepChoice]
    rcases hs : sortDescBy le xs with _ | ⟨b, bs⟩
    · rw [hs] at ih
      rw [← ih]
      simp [insDescBy]
    · rw [hs] at ih
      rw [← ih]
      simp only [insDescBy, List.head?]
      by_cases h : le b x = true
      · have hbx : key b ≤ key x := (hc b x).mp h
        simp [h, Nat.not_lt.mpr hbx]
      · have hxb : key x < key b := Nat.lt_of_not_le (fun hle => h ((hc b x).mpr hle))
        simp [h, hxb]

theorem keepChoice_mem (key : α → Nat) :
    ∀ (l : List α) (e : α), keepChoice key l = some e → e ∈ l := by
  intro l
  induction l with
  | nil => intro e h; simp [keepChoice] at h
  | cons x xs ih =>
    intro e h
    simp only [keepChoice] at h
    rcases hk : keepChoice key xs with _ | b
    · rw [hk] at h
      simp at h
      simp [h]
    · rw [hk] at h
      have h' : (if key x < key b then some b else some x) = some e := h
      by_cases hlt : key x < key b
      · rw [if_pos hlt] at h'
        right
        exact ih e (hk.trans h')
      · rw [if_neg hlt] at h'
        simp at h'
        simp [h']

theorem keepChoice_max (key : α → Nat) :
    ∀ (l : List α) (e : α), keepChoice key l = some e → ∀ x ∈ l, key x ≤ key e := by
  intro l
  induction l with
  | nil => intro e h; simp [keepChoice] at h
  | cons x xs ih =>
    intro e h y hy
    simp only [keepChoice] at h
    rcases hk : keepChoice key xs with _ | b
    · rw [hk] at h
      simp at h
      have hxs : xs = [] := (keepChoice_eq_none key xs).mp hk
      subst hxs
      simp at hy
      simp [hy, h]
    · rw [hk] at h
      have h' : (if key x < key b then some b else some x) = some e := h
      rcases List.mem_cons.mp hy with hyx | hyxs
      · subst hyx
        by_cases hlt : key y < key b
        · rw [if_pos hlt] at h'
          simp at h'
          subst h'
          exact Nat.le_of_lt hlt
        · rw [if_neg hlt] at h'
          simp at h'
          subst h'
          exact Nat.le_refl _
      · have hyb : key y ≤ key b := ih b hk y hyxs
        by_cases hlt : key x < key b
        · rw [if_pos hlt] at h'
          simp at h'
          subst h'
          exact hyb
        · rw [if_neg hlt] at h'
          simp at h'
          subst h'
          exact Nat.le_trans hyb (Nat.not_lt.mp hlt)

theorem keepChoice_first (key : α → Nat) :
    ∀ (l : List α) (e : α), keepChoice key l = some e →
      ∃ l₁ l₂, l = l₁ ++ e :: l₂ ∧ ∀ x ∈ l₁, key x < key e := by
  intro l
  induction l with
  | nil => intro e h; simp [keepChoice] at h
  | cons x xs ih =>
    intro e h
    simp only [keepChoice] at h
    rcases hk : keepChoice key xs with _ | b
    · rw [hk] at h
      simp at h
      exact ⟨[], xs, by simp [h], by simp⟩
    · rw [hk] at h
      have h' : (if key x < key b then some b else some x) = some e := h
      by_cases hlt : key x < key b
      · rw [if_pos hlt] at h'
        simp at h'
        subst h'
        obtain ⟨l₁, l₂, hsplit, hless⟩ := ih b hk
        refine ⟨x :: l₁, l₂, by simp [hsplit], ?_⟩
        intro y hy
        rcases List.mem_cons.mp hy with hyx | hyl
        · subst hyx; exact hlt
        · exact hless y hyl
      · rw [if_neg hlt] at h'
        simp at h'
        subst h'
        exact ⟨[], xs, rfl, by simp⟩

theorem glen_addGroup (gs : List (String × List α)) (k : String) (d : α) :
    glen (addGroup gs k d) = glen gs + 1 := by
  induction gs with
  | nil => simp [addGroup, glen]
  | cons kg rest ih =>
    obtain ⟨k', l⟩ := kg
    simp only [addGroup]
    split
    · simp [glen]
      omega
    · simp only [glen, List.map_cons, List.sum_cons] at ih ⊢
      omega

theorem addGroup_ne_nil (gs : List (String × List α)) (k : String) (d : α)
    (h : ∀ kg ∈ gs, kg.2 ≠ []) :
    ∀ kg ∈ addGroup gs k d, kg.2 ≠ [] := by
  induction gs with
  | nil =>
    intro kg hkg
    simp [addGroup] at hkg
    simp [hkg]
  | cons kg0 rest ih =>
    obtain ⟨k', l⟩ := kg0
    intro kg hkg
    simp only [addGroup] at hkg
    split at hkg
    · rcases List.mem_cons.mp hkg with he | hrest
      · subst he; simp
      · exact h kg (List.mem_cons_of_mem _ hrest)
    · rcases List.mem_cons.mp hkg with he | hrest
      · subst he
        exact h (k', l) (List.mem_cons_self _ _)
      · exact ih (fun kg2 hkg2 => h kg2 (List.mem_cons_of_mem _ hkg2)) kg hrest

theorem addGroup_mem_forall {P : α → Prop} (gs : List (String × List α)) (k : String) (d : α)
    (h : ∀ kg ∈ gs, ∀ x ∈ kg.2, P x) (hd : P d) :
    ∀ kg ∈ addGroup gs k d, ∀ x ∈ kg.2, P x := by
  induction gs with
  | nil =>
    intro kg hkg x hx
    simp [addGroup] at hkg
    subst hkg
    simp at hx
    subst hx
    exact hd
  | cons kg0 rest ih =>
    obtain ⟨k', l⟩ := kg0
    intro kg hkg x hx
    simp only [addGroup] at hkg
    split at hkg
    · rcases List.mem_cons.mp hkg with he | hrest
      · subst he
        simp at hx
        rcases hx with hxl | hxd
        · exact h (k', l) (List.mem_cons_self _ _) x hxl
        · subst hxd; exact hd
      · exact h kg (List.mem_cons_of_mem _ hrest) x hx
    · rcases List.mem_cons.mp hkg with he | hrest
      · subst he
        exact h (k', l) (List.mem_cons_self _ _) x hx
      · exact ih (fun kg2 hkg2 => h kg2 (List.mem_cons_of_mem _ hkg2)) kg hrest x hx

theorem glen_group_device_support (device_dirs : List DeviceDir) :
    glen (group_device_support_by_version device_dirs) = device_dirs.length := by
  have key : ∀ (ds : List DeviceDir) (gs : List (String × List DeviceDir)),
      glen (ds.foldl (fun gs d => addGroup gs (beforeFirst ' ' d.name) d) gs)
        = glen gs + ds.length := by
    intro ds
    induction ds with
    | nil => intro gs; simp
    | cons d rest ih =>
      intro gs
      simp only [List.foldl_cons, List.length_cons]
      rw [ih, glen_addGroup]
      omega
  have h := key device_dirs []
  simpa [group_device_support_by_version, glen] using h

theorem group_device_support_ne_nil (device_dirs : List DeviceDir) :
    ∀ kg ∈ group_device_support_by_version device_dirs, kg.2 ≠ [] := by
  have key : ∀ (ds : List DeviceDir) (gs : List (String × List DeviceDir)),
      (∀ kg ∈ gs, kg.2 ≠ []) →
      ∀ kg ∈ ds.foldl (fun gs d => addGroup gs (beforeFirst ' ' d.name) d) gs, kg.2 ≠ [] := by
    intro ds
    induction ds with
    | nil => intro gs h; simpa using h
    | cons d rest ih =>
      intro gs h
      simp only [List.foldl_cons]
      exact ih _ (addGroup_ne_nil gs _ d h)
  exact key device_dirs [] (by simp)

theorem foldl_add_eq_sum (f : α → Nat) :
    ∀ (l : List α) (n : Nat), l.foldl (fun t x => t + f x) n = n + (l.map f).sum := by
  intro l
  induction l with
  | nil => intro n; simp
  | cons x xs ih =>
    intro n
    simp only [List.foldl_cons, List.map_cons, List.sum_cons]
    rw [ih]
    omega

theorem sumSizes_eq (l : List DeviceDir) : sumSizes l = (l.map (fun d => d.size)).sum := by
  simpa [sumSizes] using foldl_add_eq_sum (fun d : DeviceDir => d.size) l 0

theorem calculate_total_size_eq (σ : String → Option Nat) (archives : List Archive) :
    calculate_total_size σ archives = (archives.map (fun a => (σ a.path).getD 0)).sum := by
  simpa [calculate_total_size] using
    foldl_add_eq_sum (fun a : Archive => (σ a.path).getD 0) archives 0

theorem sum_pred_add_length :
    ∀ ns : List Nat, (∀ n ∈ ns, n ≠ 0) → ((ns.map (fun n => n - 1)).sum + ns.length = ns.sum) := by
  intro ns
  induction ns with
  | nil => intro _; simp
  | cons n rest ih =>
    intro h
    have hn : n ≠ 0 := h n (List.mem_cons_self _ _)
    have hr := ih (fun m hm => h m (List.mem_cons_of_mem _ hm))
    simp only [List.map_cons, List.sum_cons, List.length_cons]
    omega

theorem remove_archives_spec (σ : String → Option Nat) (δ : String → Bool) :
    ∀ archives : List Archive,
      remove_archives σ δ archives =
        ((archives.filter (removeOk σ δ)).length,
         ((archives.filter (removeOk σ δ)).map (fun a => (σ a.path).getD 0)).sum,
         (archives.filter (fun a => !removeOk σ δ a)).map (fun a => a.path)) := by
  intro archives
  induction archives with
  | nil => rfl
  | cons a rest ih =>
    rcases hσ : σ a.path with _ | sz
    · have hok : removeOk σ δ a = false := by simp [removeOk, hσ]
      simp [remove_archives, hσ, ih, List.filter_cons, hok]
    · by_cases hδ : δ a.path = true
      · have hok : removeOk σ δ a = false := by simp [removeOk, hσ, hδ]
        simp [remove_archives, hσ, hδ, ih, List.filter_cons, hok]
      · have hok : removeOk σ δ a = true := by
          simp [removeOk, hσ]
          simpa using hδ
        simp [remove_archives, hσ, hδ, ih, List.filter_cons, hok, hσ, Nat.add_comm]

theorem remove_device_support_spec (ex : String → Bool) (δ : String → Bool) :
    ∀ dirs : List DeviceDir, (∀ d ∈ dirs, ex d.path = true) →
      remove_device_support_directories ex δ dirs =
        ((dirs.filter (fun d => !δ d.path)).length,
         ((dirs.filter (fun d => !δ d.path)).map (fun d => d.size)).sum,
         (dirs.filter (fun d => δ d.path)).map (fun d => d.path)) := by
  intro dirs
  induction dirs with
  | nil => intro _; rfl
  | cons d rest ih =>
    intro hex
    have hd : ex d.path = true := hex d (List.mem_cons_self _ _)
    have hrest := ih (fun d2 hd2 => hex d2 (List.mem_cons_of_mem _ hd2))
    by_cases hδ : δ d.path = true
    · simp [remove_device_support_directories, hd, hδ, hrest, List.filter_cons]
    · simp [remove_device_support_directories, hd, hδ, hrest, List.filter_cons,
        Nat.add_comm]

/-- C9: under the `RemoveAll` policy (`keep_latest = false`) the partition
keeps nothing and removes the full input entry list: `_get_archives_to_remove`
returns its input untouched as `to_remove`, and `_get_directories_to_remove`
returns every device-support directory with no `to_keep`. -/
theorem remove_all_partition (archives : List Archive) (dirs : List DeviceDir) :
    get_archives_to_remove archives false = (archives, archives)
    ∧ (get_directories_to_remove_full dirs false).1 = []
    ∧ (get_directories_to_remove_full dirs false).2.1 = dirs := by
  refine ⟨by simp [get_archives_to_remove], ?_, ?_⟩ <;>
    cases dirs <;> simp [get_directories_to_remove_full]

/-- C3: `Execute` processes every entry of `to_remove` exactly once and a
failure at one entry never stops the later ones: the outcome of
`_remove_archives` is fully determined entrywise, with `removed_count`
counting the successes, `removed_size` summing their sizes, and the error
list holding exactly the paths of the failed entries in input order.  The
same holds for `_remove_device_support_directories` whenever the planned
paths still exist on disk (its loop re-checks `os.path.exists` and silently
skips vanished paths). -/
theorem execute_partial_failure_isolation (σ : String → Option Nat) (δ : String → Bool)
    (ex : String → Bool) (archives : List Archive) (dirs : List DeviceDir)
    (hex : ∀ d ∈ dirs, ex d.path = true) :
    remove_archives σ δ archives =
      ((archives.filter (removeOk σ δ)).length,
       ((archives.filter (removeOk σ δ)).map (fun a => (σ a.path).getD 0)).sum,
       (archives.filter (fun a => !removeOk σ δ a)).map (fun a => a.path))
    ∧ remove_device_support_directories ex δ dirs =
      ((dirs.filter (fun d => !δ d.path)).length,
       ((dirs.filter (fun d => !δ d.path)).map (fun d => d.size)).sum,
       (dirs.filter (fun d => δ d.path)).map (fun d => d.path)) :=
  ⟨remove_archives_spec σ δ archives, remove_device_support_spec ex δ dirs hex⟩

theorem execute_partial_failure_isolation_witness :
    remove_archives (fun _ => some 5) (fun p => p == "/x")
      [⟨"/x", 1, "A"⟩, ⟨"/y", 2, "B"⟩] = (1, 5, ["/x"])
    ∧ remove_device_support_directories (fun _ => true) (fun p => p == "/x")
      [⟨"n", "/d", 3, 20⟩] = (1, 20, []) := by
  have h := execute_partial_failure_isolation (fun _ => some 5) (fun p => p == "/x")
    (fun _ => true) [⟨"/x", 1, "A"⟩, ⟨"/y", 2, "B"⟩] [⟨"n", "/d", 3, 20⟩] (by decide)
  exact ⟨h.1.trans (by decide), h.2.trans (by decide)⟩

/-- C5: `bytesToFree` is the sum of the per-entry sizes of `to_remove`:
`_calculate_total_size` sums `get_dir_size` per entry with a raised read
counted as zero (so a failing entry contributes nothing instead of aborting
the sum), and `_get_directories_to_remove` returns exactly the sum of the
cached sizes of its `to_remove` list. -/
theorem bytes_to_free_eq_sum (σ : String → Option Nat) (archives : List Archive)
    (a : Archive) (dirs : List DeviceDir) (kl : Bool) :
    calculate_total_size σ archives = (archives.map (fun x => (σ x.path).getD 0)).sum
    ∧ (σ a.path = none →
        calculate_total_size σ (a :: archives) = calculate_total_size σ archives)
    ∧ (get_directories_to_remove dirs kl).2
        = sumSizes (get_directories_to_remove dirs kl).1 := by
  refine ⟨calculate_total_size_eq σ archives, ?_, ?_⟩
  · intro hnone
    simp [calculate_total_size_eq, hnone]
  · simp only [get_directories_to_remove]
    unfold get_directories_to_remove_full
    split
    · simp [sumSizes]
    · split
      · rfl
      · rfl

theorem bytes_to_free_eq_sum_witness :
    calculate_total_size (fun _ => (none : Option Nat))
        (⟨"/q", 1, "Q"⟩ :: [⟨"/y", 2, "B"⟩])
      = calculate_total_size (fun _ => (none : Option Nat)) [⟨"/y", 2, "B"⟩] :=
  (bytes_to_free_eq_sum (fun _ => none) [⟨"/y", 2, "B"⟩] ⟨"/q", 1, "Q"⟩ [] true).2.1 rfl

theorem filterMap_head_length (L : List (List α)) (h : ∀ l ∈ L, l ≠ []) :
    (L.filterMap List.head?).length = L.length := by
  induction L with
  | nil => rfl
  | cons l rest ih =>
    have hl : l ≠ [] := h l (List.mem_cons_self _ _)
    cases l with
    | nil => exact absurd rfl hl
    | cons x xs =>
      simp [List.filterMap_cons, ih (fun m hm => h m (List.mem_cons_of_mem _ hm))]

/-- C1: under `KeepNewestPerGroup` (`keep_latest = true`) every version
group contributes exactly one entry to `to_keep` and `groupSize - 1`
entries to `to_remove`, so `|to_keep| + |to_remove| = |entries|`, and a
singleton group contributes no removal. -/
theorem keep_newest_partition_counts (dirs : List DeviceDir) :
    (get_directories_to_remove_full dirs true).1.length
      + (get_directories_to_remove_full dirs true).2.1.length = dirs.length
    ∧ (∀ k g, (k, g) ∈ group_device_support_by_version dirs →
        (sortDescBy mtimeLeD g).head?.isSome = true
        ∧ (sortDescBy mtimeLeD g).tail.length = g.length - 1
        ∧ (g.length = 1 → (sortDescBy mtimeLeD g).tail = [])) := by
  constructor
  · by_cases hemp : dirs.isEmpty
    · have hnil : dirs = [] := List.isEmpty_iff.mp hemp
      subst hnil
      simp [get_directories_to_remove_full]
    · unfold get_directories_to_remove_full
      rw [if_neg hemp]
      rw [if_neg (by simp : ¬((true : Bool) = false))]
      simp only []
      set gs := group_device_support_by_version dirs with hgs
      set gs' := gs.map (fun kg => sortDescBy mtimeLeD kg.2) with hgs'
      have hne : ∀ l ∈ gs', l ≠ [] := by
        intro l hl
        obtain ⟨kg, hkg, rfl⟩ := List.mem_map.mp hl
        intro hc
        apply group_device_support_ne_nil dirs kg hkg
        have hlen0 : kg.2.length = 0 := by
          rw [← length_sortDescBy mtimeLeD kg.2, hc]
          rfl
        exact List.length_eq_zero.mp hlen0
      rw [filterMap_head_length _ hne, List.length_flatten]
      have h1 : (gs'.map List.tail).map List.length
          = (gs.map (fun kg => kg.2.length)).map (fun n => n - 1) := by
        simp only [hgs', List.map_map]
        apply List.map_congr_left
        intro kg _
        simp [Function.comp, List.length_tail, length_sortDescBy]
      have h2 : ∀ n ∈ gs.map (fun kg => kg.2.length), n ≠ 0 := by
        intro n hn
        obtain ⟨kg, hkg, rfl⟩ := List.mem_map.mp hn
        have hg := group_device_support_ne_nil dirs kg hkg
        simpa [Ne, List.length_eq_zero] using hg
      have h3 := sum_pred_add_length (gs.map (fun kg => kg.2.length)) h2
      have hlen : gs'.length = gs.length := by simp [hgs']
      have hns : (gs.map (fun kg => kg.2.length)).length = gs.length := List.length_map _ _
      have hglen : (gs.map (fun kg => kg.2.length)).sum = dirs.length := by
        have h4 := glen_group_device_support dirs
        simpa [glen] using h4
      rw [h1, hlen]
      omega
  · intro k g hkg
    have hne : g ≠ [] := group_device_support_ne_nil dirs (k, g) hkg
    have hlen : (sortDescBy mtimeLeD g).length = g.length := length_sortDescBy _ _
    refine ⟨?_, ?_, ?_⟩
    · rcases hs : sortDescBy mtimeLeD g with _ | ⟨x, xs⟩
      · exfalso
        apply hne
        rw [hs] at hlen
        exact List.length_eq_zero.mp hlen.symm
      · rfl
    · rw [List.length_tail, hlen]
    · intro h1
      rcases hs : sortDescBy mtimeLeD g with _ | ⟨x, xs⟩
      · simp
      · rw [hs] at hlen
        rw [h1] at hlen
        have hxs : xs.length = 0 := by simpa using hlen
        simp [List.length_eq_zero.mp hxs]

theorem keep_newest_partition_counts_witness :
    (get_directories_to_remove_full
        [⟨"12.4 (A)", "/a", 1, 5⟩, ⟨"12.4 (B)", "/b", 2, 6⟩, ⟨"13.0 (C)", "/c", 3, 7⟩]
        true).1.length
      + (get_directories_to_remove_full
        [⟨"12.4 (A)", "/a", 1, 5⟩, ⟨"12.4 (B)", "/b", 2, 6⟩, ⟨"13.0 (C)", "/c", 3, 7⟩]
        true).2.1.length = 3
    ∧ (sortDescBy mtimeLeD [⟨"13.0 (C)", "/c", 3, 7⟩]).tail = [] := by
  have h := keep_newest_partition_counts
    [⟨"12.4 (A)", "/a", 1, 5⟩, ⟨"12.4 (B)", "/b", 2, 6⟩, ⟨"13.0 (C)", "/c", 3, 7⟩]
  refine ⟨h.1, ?_⟩
  exact (h.2 "13.0" [⟨"13.0 (C)", "/c", 3, 7⟩] (by decide)).2.2 (by decide)

/-- C2 (amended): under `KeepNewestPerGroup` the kept entry of each group
has maximal recency, and when several entries tie on recency the one listed
FIRST in the directory listing survives (Python's stable sort keeps input
order on equal keys) — not the one whose path sorts lexicographically
greatest. -/
theorem kept_entry_is_first_maximum (dirs : List DeviceDir) (k : String)
    (g : List DeviceDir) (e : DeviceDir)
    (hkg : (k, g) ∈ group_device_support_by_version dirs)
    (hh : (sortDescBy mtimeLeD g).head? = some e) :
    e ∈ g ∧ (∀ x ∈ g, x.mtime ≤ e.mtime)
    ∧ ∃ l₁ l₂, g = l₁ ++ e :: l₂ ∧ ∀ x ∈ l₁, x.mtime < e.mtime := by
  have hc : ∀ x y : DeviceDir, mtimeLeD x y = true ↔ x.mtime ≤ y.mtime := by
    intro x y
    simp [mtimeLeD]
  have hk := head?_sortDescBy mtimeLeD (fun d => d.mtime) hc g
  have he : keepChoice (fun d : DeviceDir => d.mtime) g = some e := hk.symm.trans hh
  exact ⟨keepChoice_mem _ g e he, keepChoice_max _ g e he, keepChoice_first _ g e he⟩

theorem kept_entry_is_first_maximum_witness :
    (⟨"12.4 (B)", "/b", 2, 6⟩ : DeviceDir)
        ∈ [⟨"12.4 (A)", "/a", 1, 5⟩, ⟨"12.4 (B)", "/b", 2, 6⟩]
    ∧ (∀ x ∈ [(⟨"12.4 (A)", "/a", 1, 5⟩ : DeviceDir), ⟨"12.4 (B)", "/b", 2, 6⟩],
        x.mtime ≤ (⟨"12.4 (B)", "/b", 2, 6⟩ : DeviceDir).mtime)
    ∧ ∃ l₁ l₂,
        [(⟨"12.4 (A)", "/a", 1, 5⟩ : DeviceDir), ⟨"12.4 (B)", "/b", 2, 6⟩]
          = l₁ ++ (⟨"12.4 (B)", "/b", 2, 6⟩ : DeviceDir) :: l₂
        ∧ ∀ x ∈ l₁, x.mtime < (⟨"12.4 (B)", "/b", 2, 6⟩ : DeviceDir).mtime :=
  kept_entry_is_first_maximum
    [⟨"12.4 (A)", "/a", 1, 5⟩, ⟨"12.4 (B)", "/b", 2, 6⟩] "12.4"
    [⟨"12.4 (A)", "/a", 1, 5⟩, ⟨"12.4 (B)", "/b", 2, 6⟩] ⟨"12.4 (B)", "/b", 2, 6⟩
    (by decide) (by decide)

/-- C2 counterexample: two entries of the same version group with identical
recency; the code keeps the first-listed one even though the other path
sorts lexicographically greatest (the lexicographically greatest path is
removed), refuting the claimed tie-break. -/
theorem tie_break_not_lex_greatest_cex :
    (get_directories_to_remove_full
        [⟨"12.4 (A)", "/ds/12.4 (A)", 5, 1⟩, ⟨"12.4 (B)", "/ds/12.4 (B)", 5, 2⟩] true).1
      = [⟨"12.4 (A)", "/ds/12.4 (A)", 5, 1⟩]
    ∧ (get_directories_to_remove_full
        [⟨"12.4 (A)", "/ds/12.4 (A)", 5, 1⟩, ⟨"12.4 (B)", "/ds/12.4 (B)", 5, 2⟩] true).2.1
      = [⟨"12.4 (B)", "/ds/12.4 (B)", 5, 2⟩]
    ∧ beforeFirst ' ' "12.4 (A)" = beforeFirst ' ' "12.4 (B)"
    ∧ strLe "/ds/12.4 (A)" "/ds/12.4 (B)" = true
    ∧ "/ds/12.4 (A)" ≠ "/ds/12.4 (B)" := by
  decide

/-- C6 (amended): the partition computes no filesystem effects and is
idempotent, but the archives variant does mutate its input list: the
post-call list state is a (stable, mtime-descending) permutation of the
input rather than the input itself, and calling the function again on that
post-call state returns exactly the same state and the same `to_remove`
list. -/
theorem partition_idempotent_on_state (archives : List Archive) (kl : Bool) :
    (get_archives_to_remove archives kl).1.Perm archives
    ∧ get_archives_to_remove (get_archives_to_remove archives kl).1 kl
        = get_archives_to_remove archives kl := by
  have htot : ∀ x y : Archive, mtimeLeA x y = false → mtimeLeA y x = true := by
    intro x y h
    simp [mtimeLeA] at h ⊢
    omega
  cases kl with
  | false => exact ⟨by simp [get_archives_to_remove], by simp [get_archives_to_remove]⟩
  | true =>
    constructor
    · simp only [get_archives_to_remove]
      simp only [Bool.true_eq_false, if_false]
      exact perm_sortDescBy mtimeLeA archives
    · simp only [get_archives_to_remove, Bool.true_eq_false, if_false]
      rw [sortDescBy_idem mtimeLeA htot]

/-- C6 counterexample: `_get_archives_to_remove` with `keep_latest` sorts
its input list in place, so after the call the caller's list is reordered —
the input list is not left "unchanged in the same order". -/
theorem partition_mutates_input_cex :
    (get_archives_to_remove [⟨"/a", 1, "P one"⟩, ⟨"/b", 2, "Q two"⟩] true).1
      ≠ [⟨"/a", 1, "P one"⟩, ⟨"/b", 2, "Q two"⟩] := by
  decide

theorem keep_latest_pair_first_newer (d1 d2 : DeviceDir)
    (hk : beforeFirst ' ' d1.name = beforeFirst ' ' d2.name)
    (hm : d2.mtime ≤ d1.mtime) :
    get_directories_to_remove_full [d1, d2] true = ([d1], [d2], d2.size) := by
  have hg : group_device_support_by_version [d1, d2]
      = [(beforeFirst ' ' d1.name, [d1, d2])] := by
    simp [group_device_support_by_version, addGroup, hk]
  have hs : sortDescBy mtimeLeD [d1, d2] = [d1, d2] := by
    simp [sortDescBy, insDescBy, mtimeLeD, hm]
  unfold get_directories_to_remove_full
  rw [if_neg (by simp)]
  rw [if_neg (by simp : ¬((true : Bool) = false))]
  simp [hg, hs, sumSizes]

theorem keep_latest_pair_second_newer (d1 d2 : DeviceDir)
    (hk : beforeFirst ' ' d1.name = beforeFirst ' ' d2.name)
    (hm : d1.mtime < d2.mtime) :
    get_directories_to_remove_full [d1, d2] true = ([d2], [d1], d1.size) := by
  have hg : group_device_support_by_version [d1, d2]
      = [(beforeFirst ' ' d1.name, [d1, d2])] := by
    simp [group_device_support_by_version, addGroup, hk]
  have hs : sortDescBy mtimeLeD [d1, d2] = [d2, d1] := by
    simp [sortDescBy, insDescBy, mtimeLeD]
    omega
  unfold get_directories_to_remove_full
  rw [if_neg (by simp)]
  rw [if_neg (by simp : ¬((true : Bool) = false))]
  simp [hg, hs, sumSizes]

/-- C7 (amended): the src device-support group key is the directory-name
prefix before the first space; on canonically named directories
`version (build)` this coincides with the leading `major.minor[.patch]`
version prefix, so "12.4.1 (16G102)" and "12.4.1 (16G97)" fall in one
group "12.4.1", and under keep-latest the one with the strictly later
modification time is kept, whichever order the listing presents them in. -/
theorem device_support_version_scenario (t1 t2 s1 s2 : Nat) (h : t2 < t1) :
    beforeFirst ' ' "12.4.1 (16G102)" = "12.4.1"
    ∧ beforeFirst ' ' "12.4.1 (16G97)" = "12.4.1"
    ∧ versionMatch "12.4.1 (16G102)" = some "12.4.1"
    ∧ versionMatch "12.4.1 (16G97)" = some "12.4.1"
    ∧ get_directories_to_remove_full
        [⟨"12.4.1 (16G102)", "/ds/102", t1, s1⟩, ⟨"12.4.1 (16G97)", "/ds/97", t2, s2⟩] true
      = ([⟨"12.4.1 (16G102)", "/ds/102", t1, s1⟩], [⟨"12.4.1 (16G97)", "/ds/97", t2, s2⟩], s2)
    ∧ get_directories_to_remove_full
        [⟨"12.4.1 (16G97)", "/ds/97", t2, s2⟩, ⟨"12.4.1 (16G102)", "/ds/102", t1, s1⟩] true
      = ([⟨"12.4.1 (16G102)", "/ds/102", t1, s1⟩], [⟨"12.4.1 (16G97)", "/ds/97", t2, s2⟩], s2) := by
  refine ⟨by decide, by decide, by decide, by decide, ?_, ?_⟩
  · refine keep_latest_pair_first_newer _ _ ?_ (Nat.le_of_lt h)
    show beforeFirst ' ' "12.4.1 (16G102)" = beforeFirst ' ' "12.4.1 (16G97)"
    decide
  · refine keep_latest_pair_second_newer _ _ ?_ h
    show beforeFirst ' ' "12.4.1 (16G97)" = beforeFirst ' ' "12.4.1 (16G102)"
    decide

theorem device_support_version_scenario_witness :
    get_directories_to_remove_full
        [⟨"12.4.1 (16G102)", "/ds/102", 2, 3⟩, ⟨"12.4.1 (16G97)", "/ds/97", 1, 4⟩] true
      = ([⟨"12.4.1 (16G102)", "/ds/102", 2, 3⟩], [⟨"12.4.1 (16G97)", "/ds/97", 1, 4⟩], 4) :=
  (device_support_version_scenario 2 1 3 4 (by decide)).2.2.2.2.1

/-- C7 counterexample: the src implementation keys groups by the text
before the first space, not by a leading `major.minor[.patch]` version
prefix: a directory named "backup stuff", whose name has no version prefix
at all, is still grouped — under the key "backup". -/
theorem device_group_key_not_version_cex :
    group_device_support_by_version [⟨"backup stuff", "/ds/backup stuff", 1, 2⟩]
      = [("backup", [⟨"backup stuff", "/ds/backup stuff", 1, 2⟩])]
    ∧ versionMatch "backup stuff" = none
    ∧ versionMatch "backup" = none := by
  decide

theorem takeWhile_and_of_forall (p q : α → Bool) :
    ∀ l : List α, (∀ c ∈ l.takeWhile q, p c = true) →
      l.takeWhile (fun c => p c && q c) = l.takeWhile q := by
  intro l
  induction l with
  | nil => intro _; rfl
  | cons x xs ih =>
    intro h
    by_cases hq : q x = true
    · have hp : p x = true := h x (by simp [List.takeWhile_cons, hq])
      have hrest : ∀ c ∈ xs.takeWhile q, p c = true := by
        intro c hc
        exact h c (by simp [List.takeWhile_cons, hq, hc])
      simp [List.takeWhile_cons, hq, hp, ih hrest]
    · simp [List.takeWhile_cons, hq]

theorem takeWhile_dot_then_space (l : List Char) :
    (l.takeWhile (fun x => x != '.')).takeWhile (fun x => x != ' ')
      = l.takeWhile (fun c => c != '.' && c != ' ') := by
  induction l with
  | nil => rfl
  | cons c cs ih =>
    by_cases h1 : (c != '.') = true
    · by_cases h2 : (c != ' ') = true
      · simp [List.takeWhile_cons, h1, h2, ih]
      · simp [List.takeWhile_cons, h1, h2]
    · simp [List.takeWhile_cons, h1]

/-- C8 (amended): the src archive group key is the bundle file name cut at
its first dot and then at its first space — equivalently the prefix before
the first dot-or-space — and it equals the substring before the first
space exactly when no dot occurs before the first space.  (The macos_tools
archives variant uses the substring before the first space of the full
file name directly.) -/
theorem archive_group_key_characterization (root file : String) (t : Nat) :
    archive_group_key (mk_archive_entry root file t)
      = ⟨file.data.takeWhile (fun c => c != '.' && c != ' ')⟩
    ∧ ((∀ c ∈ file.data.takeWhile (fun x => x != ' '), c ≠ '.') →
        archive_group_key (mk_archive_entry root file t) = beforeFirst ' ' file) := by
  have hbase : archive_group_key (mk_archive_entry root file t)
      = ⟨(file.data.takeWhile (fun x => x != '.')).takeWhile (fun x => x != ' ')⟩ := rfl
  constructor
  · rw [hbase]
    congr 1
    exact takeWhile_dot_then_space file.data
  · intro h
    rw [hbase]
    show (⟨(file.data.takeWhile (fun x => x != '.')).takeWhile (fun x => x != ' ')⟩ : String)
      = ⟨file.data.takeWhile (fun x => x != ' ')⟩
    congr 1
    rw [takeWhile_dot_then_space]
    exact takeWhile_and_of_forall _ _ file.data
      (fun c hc => by simpa [bne_iff_ne] using h c hc)

theorem archive_group_key_characterization_witness :
    archive_group_key (mk_archive_entry "/r" "MyApp 2024-01-01 12.30.45.xcarchive" 0)
      = beforeFirst ' ' "MyApp 2024-01-01 12.30.45.xcarchive" :=
  (archive_group_key_characterization "/r" "MyApp 2024-01-01 12.30.45.xcarchive" 0).2
    (by decide)

/-- C8 counterexample: for the bundle name "MyApp.xcarchive" the src code
groups under "MyApp" (name cut at the first dot), while the substring
before the first space is the whole name "MyApp.xcarchive"; the claimed
key rule does not match the code. -/
theorem archive_group_key_cex :
    archive_group_key (mk_archive_entry "/r" "MyApp.xcarchive" 0) = "MyApp"
    ∧ beforeFirst ' ' "MyApp.xcarchive" = "MyApp.xcarchive"
    ∧ ("MyApp" : String) ≠ "MyApp.xcarchive" := by
  decide

theorem ios_versions_all_matched (items : List String) :
    ∀ kg ∈ ios_versions_of items, ∀ x ∈ kg.2, (versionMatch x).isSome = true := by
  have key : ∀ (its : List String) (gs : List (String × List String)),
      (∀ kg ∈ gs, ∀ x ∈ kg.2, (versionMatch x).isSome = true) →
      ∀ kg ∈ its.foldl (fun gs it =>
          match versionMatch it with
          | some v => addGroup gs v it
          | none => gs) gs, ∀ x ∈ kg.2, (versionMatch x).isSome = true := by
    intro its
    induction its with
    | nil => intro gs h; simpa using h
    | cons it rest ih =>
      intro gs h
      simp only [List.foldl_cons]
      rcases hv : versionMatch it with _ | v
      · simp only [hv]
        exact ih gs h
      · simp only [hv]
        exact ih _ (addGroup_mem_forall gs v it h (by simp [hv]))
  exact key items [] (by simp)

theorem mem_macos_to_delete (items : List String) (x : String) :
    x ∈ macos_device_to_delete items → ∃ kg ∈ ios_versions_of items, x ∈ kg.2 := by
  have key : ∀ (gs : List (String × List String)) (acc : List String),
      x ∈ gs.foldl (fun td kg =>
        if 1 < kg.2.length then td ++ (sortDescBy strLe kg.2).tail else td) acc →
      x ∈ acc ∨ ∃ kg ∈ gs, x ∈ kg.2 := by
    intro gs
    induction gs with
    | nil => intro acc h; exact Or.inl (by simpa using h)
    | cons kg rest ih =>
      intro acc h
      simp only [List.foldl_cons] at h
      rcases ih _ h with hacc | ⟨kg2, hkg2, hx⟩
      · by_cases hc : 1 < kg.2.length
        · rw [if_pos hc] at hacc
          rcases List.mem_append.mp hacc with h1 | h2
          · exact Or.inl h1
          · refine Or.inr ⟨kg, List.mem_cons_self _ _, ?_⟩
            exact (mem_sortDescBy strLe kg.2 x).mp (List.mem_of_mem_tail h2)
        · rw [if_neg hc] at hacc
          exact Or.inl hacc
      · exact Or.inr ⟨kg2, List.mem_cons_of_mem _ hkg2, hx⟩
  intro h
  rcases key (ios_versions_of items) [] h with hnil | hex
  · simp at hnil
  · exact hex

/-- C10: in the macos_tools keep-latest device-support cleanup, a directory
whose name does not start with a `major.minor[.patch]` version prefix is
never scheduled for deletion: the grouping step silently skips it, so it
survives the cleanup pass. -/
theorem nonmatching_dirs_survive (items : List String) (n : String)
    (hn : n ∈ items) (hv : versionMatch n = none) :
    n ∉ macos_device_to_delete items := by
  intro hmem
  obtain ⟨kg, hkg, hx⟩ := mem_macos_to_delete items n hmem
  have hsome := ios_versions_all_matched items kg hkg n hx
  rw [hv] at hsome
  simp at hsome

theorem nonmatching_dirs_survive_witness :
    "backup stuff"
      ∉ macos_device_to_delete ["backup stuff", "12.4.1 (16G102)", "12.4.1 (16G97)"] :=
  nonmatching_dirs_survive ["backup stuff", "12.4.1 (16G102)", "12.4.1 (16G97)"]
    "backup stuff" (by decide) (by decide)

theorem total_eq_sumSizes (dirs : List DeviceDir) (kl : Bool) :
    (get_directories_to_remove dirs kl).2 = sumSizes (get_directories_to_remove dirs kl).1 := by
  simp only [get_directories_to_remove]
  unfold get_directories_to_remove_full
  split
  · simp [sumSizes]
  · split
    · rfl
    · rfl

/-- C4: a dry run deletes nothing from disk, and the bytes it reports are
exactly the plan total over `to_remove`; on the same unchanged disk state a
subsequent real run attempts exactly that plan, and (absent per-entry
failures) removes the same number of entries and frees exactly the
reported bytes — for both the archives flow and the device-support flow. -/
theorem dry_run_reports_real_bytes (σ : String → Option Nat) (δ : String → Bool)
    (ex : String → Bool) (kl : Bool) (archives : List Archive) (dirs : List DeviceDir) :
    (cleanup_archives_sim σ δ true kl archives).2 = []
    ∧ (cleanup_archives_sim σ δ true kl archives).1.2.1
        = calculate_total_size σ ((get_archives_to_remove archives kl).2)
    ∧ ((∀ a ∈ (get_archives_to_remove archives kl).2,
          (σ a.path).isSome = true ∧ δ a.path = false) →
        (cleanup_archives_sim σ δ false kl archives).1.1
          = (cleanup_archives_sim σ δ true kl archives).1.1
        ∧ (cleanup_archives_sim σ δ false kl archives).1.2.1
          = (cleanup_archives_sim σ δ true kl archives).1.2.1)
    ∧ ((∀ d ∈ (get_directories_to_remove dirs kl).1, ex d.path = true ∧ δ d.path = false) →
        (remove_device_support_directories ex δ ((get_directories_to_remove dirs kl).1)).2.1
          = (get_directories_to_remove dirs kl).2) := by
  refine ⟨rfl, rfl, ?_, ?_⟩
  · intro h
    have hok : ∀ a ∈ (get_archives_to_remove archives kl).2, removeOk σ δ a = true := by
      intro a ha
      obtain ⟨h1, h2⟩ := h a ha
      rcases hσ : σ a.path with _ | sz
      · rw [hσ] at h1
        simp at h1
      · simp [removeOk, hσ, h2]
    have hf : ((get_archives_to_remove archives kl).2).filter (removeOk σ δ)
        = (get_archives_to_remove archives kl).2 := List.filter_eq_self.mpr hok
    constructor
    · show (remove_archives σ δ ((get_archives_to_remove archives kl).2)).1 = _
      rw [remove_archives_spec, hf]
      rfl
    · show (remove_archives σ δ ((get_archives_to_remove archives kl).2)).2.1 = _
      rw [remove_archives_spec, hf]
      show _ = calculate_total_size σ ((get_archives_to_remove archives kl).2)
      rw [calculate_total_size_eq]
  · intro h
    have hex : ∀ d ∈ (get_directories_to_remove dirs kl).1, ex d.path = true :=
      fun d hd => (h d hd).1
    rw [remove_device_support_spec ex δ _ hex]
    have hfil : ((get_directories_to_remove dirs kl).1).filter (fun d => !δ d.path)
        = (get_directories_to_remove dirs kl).1 := by
      apply List.filter_eq_self.mpr
      intro d hd
      simp [(h d hd).2]
    show (((get_directories_to_remove dirs kl).1.filter (fun d => !δ d.path)).map
        (fun d => d.size)).sum = _
    rw [hfil, total_eq_sumSizes, sumSizes_eq]

theorem dry_run_reports_real_bytes_witness :
    (cleanup_archives_sim (fun _ => some 7) (fun _ => false) false true
        [⟨"/a", 1, "P one"⟩, ⟨"/b", 2, "P two"⟩]).1.2.1
      = (cleanup_archives_sim (fun _ => some 7) (fun _ => false) true true
        [⟨"/a", 1, "P one"⟩, ⟨"/b", 2, "P two"⟩]).1.2.1
    ∧ (remove_device_support_directories (fun _ => true) (fun _ => false)
        ((get_directories_to_remove [⟨"12.4 (A)", "/x", 1, 5⟩] true).1)).2.1
      = (get_directories_to_remove [⟨"12.4 (A)", "/x", 1, 5⟩] true).2 := by
  have h := dry_run_reports_real_bytes (fun _ => some 7) (fun _ => false)
    (fun _ => true) true [⟨"/a", 1, "P one"⟩, ⟨"/b", 2, "P two"⟩]
    [⟨"12.4 (A)", "/x", 1, 5⟩]
  exact ⟨(h.2.2.1 (by decide)).2, h.2.2.2 (by decide)⟩
